import Mathlib

/-!
Shallow embedding of the PIA (Packed Integer Array) Rust library
(`src/lib.rs`) and proofs of the specified properties.

Rust `u8` values are modelled as `Nat` together with the invariant `< 256`;
the Rust shift operators on `u8` are modelled explicitly:
`x << s` is `x * 2 ^ s % 256` (bits shifted past the top are discarded)
and `x >> s` is `x / 2 ^ s`.  A panic is modelled as an explicit flag
(`Option` for `get`, a `panicked` field for the mutators), carrying the
state the container had when the panic fired.  Byte accesses
`content[start_byte]` are modelled with `List.getD _ 0`; for every index
that passes the bounds check the accessed bytes lie inside the buffer
(`run_fits`), so the default is never reached on the Rust-reachable paths.
-/

namespace PIA

/-- Model of Rust `u8` left shift: `x << s` keeps only the low 8 bits. -/
def shl8 (x s : Nat) : Nat := x * 2 ^ s % 256

/-- Model of Rust `u8` right shift: `x >> s`. -/
def shr8 (x s : Nat) : Nat := x / 2 ^ s

/-- Embedding of `pub const fn get_array_length(bits: u8, size: usize) -> usize`:
`(((bits as usize) * size) + (u8::BITS as usize) - 1) / (u8::BITS as usize)`. -/
def get_array_length (bits size : Nat) : Nat := (bits * size + 8 - 1) / 8

/-- Embedding of `pub struct PackedIntegerArray<const BITS: u8, const LEN: usize>`:
the sole field is `content: [u8; get_array_length(BITS, LEN)]`.
The fixed array length and the `u8` range of the bytes are type invariants in
Rust; here they are the well-formedness predicate `Wf`. -/
structure PackedIntegerArray (BITS LEN : Nat) where
  content : List Nat

/-- The Rust type invariants of `PackedIntegerArray<BITS, LEN>`: the backing
array has exactly `get_array_length BITS LEN` bytes and every byte is a `u8`. -/
def Wf {BITS LEN : Nat} (a : PackedIntegerArray BITS LEN) : Prop :=
  a.content.length = get_array_length BITS LEN ∧ ∀ b ∈ a.content, b < 256

/-- Embedding of `new()` / `Default::default()`: a zero-filled array of
`get_array_length BITS LEN` bytes. -/
def new (BITS LEN : Nat) : PackedIntegerArray BITS LEN :=
  ⟨List.replicate (get_array_length BITS LEN) 0⟩

/-- The bit-extraction body of `get` (everything after the bounds check),
line for line:
`start_byte = (index * BITS) / 8`, `start_bit = index * BITS - start_byte * 8`,
`result = (content[start_byte] << start_bit) >> (8 - BITS)`, and when
`start_bit + BITS > 8` additionally
`result |= content[start_byte + 1] >> (2 * 8 - (start_bit + BITS))`. -/
def getRaw (BITS : Nat) (c : List Nat) (index : Nat) : Nat :=
  let start_byte := index * BITS / 8
  let start_bit := index * BITS - start_byte * 8
  let result := shr8 (shl8 (c.getD start_byte 0) start_bit) (8 - BITS)
  if start_bit + BITS > 8 then
    result ||| shr8 (c.getD (start_byte + 1) 0) (2 * 8 - (start_bit + BITS))
  else
    result

/-- Embedding of `pub fn get(&self, index: usize) -> u8`: panics (`none`)
when `index >= LEN`, otherwise returns the packed value at `index`. -/
def get {BITS LEN : Nat} (a : PackedIntegerArray BITS LEN) (index : Nat) :
    Option Nat :=
  if index ≥ LEN then none else some (getRaw BITS a.content index)

/-- The clearing step shared verbatim by `set` (lines 147-154) and `clear`
(lines 188-195): zero the bit run of element `index`, leaving all other
bits intact.  Spanning case:
`content[start_byte] ^= (content[start_byte] << start_bit) >> start_bit` and
`content[start_byte+1] ^= (content[start_byte+1] >> (16 - (start_bit + BITS))) << (16 - (start_bit + BITS))`;
otherwise
`content[start_byte] ^= ((content[start_byte] << start_bit) >> (8 - BITS)) << (8 - BITS - start_bit)`. -/
def clearRaw (BITS : Nat) (c : List Nat) (index : Nat) : List Nat :=
  let start_byte := index * BITS / 8
  let start_bit := index * BITS - start_byte * 8
  if start_bit + BITS > 8 then
    let c1 := c.set start_byte
      ((c.getD start_byte 0) ^^^ shr8 (shl8 (c.getD start_byte 0) start_bit) start_bit)
    c1.set (start_byte + 1)
      ((c1.getD (start_byte + 1) 0) ^^^
        shl8 (shr8 (c1.getD (start_byte + 1) 0) (2 * 8 - (start_bit + BITS)))
          (2 * 8 - (start_bit + BITS)))
  else
    c.set start_byte
      ((c.getD start_byte 0) ^^^
        shl8 (shr8 (shl8 (c.getD start_byte 0) start_bit) (8 - BITS))
          (8 - BITS - start_bit))

/-- The write step of `set` (lines 156-160):
`content[start_byte] |= (value << (8 - BITS)) >> start_bit`, and when the run
spans two bytes additionally
`content[start_byte + 1] |= value << (2 * 8 - BITS - start_bit)`. -/
def writeRaw (BITS : Nat) (c : List Nat) (index value : Nat) : List Nat :=
  let start_byte := index * BITS / 8
  let start_bit := index * BITS - start_byte * 8
  let c1 := c.set start_byte
    ((c.getD start_byte 0) ||| shr8 (shl8 value (8 - BITS)) start_bit)
  if start_bit + BITS > 8 then
    c1.set (start_byte + 1)
      ((c1.getD (start_byte + 1) 0) ||| shl8 value (2 * 8 - BITS - start_bit))
  else
    c1

/-- The mutation body of `set` after its checks: the clearing step (identical
code to `clear`) followed by the write step. -/
def setRaw (BITS : Nat) (c : List Nat) (index value : Nat) : List Nat :=
  writeRaw BITS (clearRaw BITS c index) index value

/-- Result of a mutating call: whether the truncation warning was logged,
whether the call panicked, and the backing state when the call ended
(for a panic: the state at the moment the panic fired). -/
structure MutResult (BITS LEN : Nat) where
  warned : Bool
  panicked : Bool
  state : PackedIntegerArray BITS LEN

/-- Embedding of `pub fn set(&mut self, index: usize, value: u8)`:
first `max = 2^BITS` and the warning when `value >= max` (lines 135-138),
then the bounds-check panic (lines 140-142), then clear and write. -/
def set {BITS LEN : Nat} (a : PackedIntegerArray BITS LEN)
    (index value : Nat) : MutResult BITS LEN :=
  let max := 2 ^ BITS
  let warned := decide (value ≥ max)
  if index ≥ LEN then ⟨warned, true, a⟩
  else ⟨warned, false, ⟨setRaw BITS a.content index value⟩⟩

/-- Embedding of `pub fn clear(&mut self, index: usize)`: the bounds-check
panic, then the clearing step.  `clear` never logs a warning. -/
def clear {BITS LEN : Nat} (a : PackedIntegerArray BITS LEN)
    (index : Nat) : MutResult BITS LEN :=
  if index ≥ LEN then ⟨false, true, a⟩
  else ⟨false, false, ⟨clearRaw BITS a.content index⟩⟩

/-- Embedding of `pub fn unpack(self) -> [u8; LEN]`: `get(i)` for each
`i in 0..LEN` in order (`none` would propagate a panic of `get`, which
cannot happen since every `i` is in bounds). -/
def unpack {BITS LEN : Nat} (a : PackedIntegerArray BITS LEN) :
    Option (List Nat) :=
  (List.range LEN).mapM (get a)

/-- Abstract view of the packed buffer as a bit stream: `bitAt c p` is bit
number `p`, counting from the most significant bit of byte 0 onward
(big-endian within a byte, byte-major), the layout described in the spec. -/
def bitAt (c : List Nat) (p : Nat) : Bool :=
  (c.getD (p / 8) 0).testBit (7 - p % 8)

/-! ## Helper lemmas about the byte-level primitives -/

lemma testBit_shl8 (x s j : Nat) :
    (shl8 x s).testBit j = (decide (j < 8) && (decide (s ≤ j) && x.testBit (j - s))) := by
  have h : (256 : Nat) = 2 ^ 8 := by norm_num
  rw [shl8, h, Nat.testBit_mod_two_pow, Nat.mul_comm, Nat.testBit_mul_pow_two]

lemma testBit_shr8 (x s j : Nat) : (shr8 x s).testBit j = x.testBit (s + j) := by
  rw [shr8, ← Nat.shiftRight_eq_div_pow, Nat.testBit_shiftRight]

lemma shl8_lt (x s : Nat) : shl8 x s < 256 := Nat.mod_lt _ (by norm_num)

lemma shr8_lt {x : Nat} (hx : x < 256) (s : Nat) : shr8 x s < 256 :=
  Nat.lt_of_le_of_lt (Nat.div_le_self _ _) hx

lemma xor_lt_256 {x y : Nat} (hx : x < 256) (hy : y < 256) : x ^^^ y < 256 := by
  have h : (256 : Nat) = 2 ^ 8 := by norm_num
  rw [h] at hx hy ⊢
  exact Nat.xor_lt_two_pow hx hy

lemma lor_lt_256 {x y : Nat} (hx : x < 256) (hy : y < 256) : x ||| y < 256 := by
  have h : (256 : Nat) = 2 ^ 8 := by norm_num
  rw [h] at hx hy ⊢
  exact Nat.or_lt_two_pow hx hy

lemma testBit_of_lt_256 {x j : Nat} (hx : x < 256) (hj : 8 ≤ j) :
    x.testBit j = false := by
  refine Nat.testBit_lt_two_pow (Nat.lt_of_lt_of_le hx ?_)
  calc (256 : Nat) = 2 ^ 8 := by norm_num
    _ ≤ 2 ^ j := Nat.pow_le_pow_right (by norm_num) hj

lemma getD_lt {c : List Nat} (hc : ∀ b ∈ c, b < 256) (k : Nat) :
    c.getD k 0 < 256 := by
  rcases h : getElem? c k with _ | b
  · simp [List.getD_eq_getElem?_getD, h]
  · have hb := hc b (List.getElem?_mem h)
    simp [List.getD_eq_getElem?_getD, h, hb]

lemma getD_set (l : List Nat) (i j x : Nat) :
    (l.set i x).getD j 0 = if i = j ∧ i < l.length then x else l.getD j 0 := by
  simp only [List.getD_eq_getElem?_getD, List.getElem?_set]
  by_cases h1 : i = j
  · subst h1
    by_cases h2 : i < l.length
    · simp [h2]
    · simp [h2, List.getElem?_eq_none (Nat.le_of_not_lt h2)]
  · simp [h1]

lemma set_getD_self (l : List Nat) (i : Nat) : l.set i (l.getD i 0) = l := by
  by_cases h : i < l.length
  · apply List.ext_getElem?
    intro n
    rw [List.getElem?_set]
    by_cases hn : i = n
    · subst hn
      simp [h, List.getElem?_eq_getElem h, List.getD_eq_getElem?_getD]
    · simp [hn]
  · rw [List.set_eq_of_length_le (Nat.le_of_not_lt h)]

lemma bytes_set {c : List Nat} (hc : ∀ b ∈ c, b < 256) {x : Nat}
    (hx : x < 256) (i : Nat) : ∀ b ∈ c.set i x, b < 256 := by
  intro b hb
  rcases List.mem_or_eq_of_mem_set hb with h | rfl
  · exact hc b h
  · exact hx

/-! ## Bit-level characterization of the three primitives -/

/-- Bit `j` of the value extracted by `get`-arithmetic at `index` is bit
`index * BITS + (BITS - 1 - j)` of the abstract bit stream: elements are
laid out contiguously, most significant bit first. -/
lemma getRaw_testBit {BITS : Nat} (hB1 : 1 ≤ BITS) (hB8 : BITS ≤ 8)
    {c : List Nat} (hc : ∀ b ∈ c, b < 256) (index j : Nat) :
    (getRaw BITS c index).testBit j =
      (decide (j < BITS) && bitAt c (index * BITS + (BITS - 1 - j))) := by
  simp only [getRaw, bitAt]
  generalize hM : index * BITS = M
  have hst : M - M / 8 * 8 = M % 8 := by omega
  rw [hst]
  have hb0 := getD_lt hc (M / 8)
  have hb1 := getD_lt hc (M / 8 + 1)
  by_cases hsp : M % 8 + BITS > 8
  · rw [if_pos hsp]
    simp only [Nat.testBit_or, testBit_shr8, testBit_shl8]
    by_cases hj : j < BITS
    · by_cases hj2 : j < M % 8 + BITS - 8
      · -- the bit lives in the second byte
        have e1 : (M + (BITS - 1 - j)) / 8 = M / 8 + 1 := by omega
        have e2 : 7 - (M + (BITS - 1 - j)) % 8 = 2 * 8 - (M % 8 + BITS) + j := by
          omega
        have e3 : ¬ (M % 8 ≤ 8 - BITS + j) := by omega
        rw [e1, e2]
        simp [hj, e3]
      · -- the bit lives in the first byte
        have e1 : (M + (BITS - 1 - j)) / 8 = M / 8 := by omega
        have e2 : 7 - (M + (BITS - 1 - j)) % 8 = 8 - BITS + j - M % 8 := by omega
        have e4 : (8 : Nat) ≤ 2 * 8 - (M % 8 + BITS) + j := by omega
        have e5 : 8 - BITS + j < 8 := by omega
        have e6 : M % 8 ≤ 8 - BITS + j := by omega
        rw [e1, e2, testBit_of_lt_256 hb1 e4]
        simp [hj, e5, e6]
    · have e5 : ¬ (8 - BITS + j < 8) := by omega
      have e4 : (8 : Nat) ≤ 2 * 8 - (M % 8 + BITS) + j := by omega
      rw [testBit_of_lt_256 hb1 e4]
      simp [hj, e5]
  · rw [if_neg hsp]
    simp only [testBit_shr8, testBit_shl8]
    by_cases hj : j < BITS
    · have e1 : (M + (BITS - 1 - j)) / 8 = M / 8 := by omega
      have e2 : 7 - (M + (BITS - 1 - j)) % 8 = 8 - BITS + j - M % 8 := by omega
      have e5 : 8 - BITS + j < 8 := by omega
      have e6 : M % 8 ≤ 8 - BITS + j := by omega
      rw [e1, e2]
      simp [hj, e5, e6]
    · have e5 : ¬ (8 - BITS + j < 8) := by omega
      simp [hj, e5]

/-- Effect on one byte of the spanning-case clearing step for the first
byte: the low `8 - st` bits (the tail of the byte) are zeroed, the rest
is untouched. -/
lemma clear_span_lo (b0 st t : Nat) (ht : t < 8) :
    (b0 ^^^ shr8 (shl8 b0 st) st).testBit t =
      if st + t < 8 then false else b0.testBit t := by
  have e : st + t - st = t := by omega
  simp only [Nat.testBit_xor, testBit_shr8, testBit_shl8, e]
  by_cases h : st + t < 8
  · simp [h]
  · simp [h]

/-- Effect on one byte of the spanning-case clearing step for the second
byte: the high bits from position `d` up (the head of the byte) are zeroed,
the rest is untouched. -/
lemma clear_span_hi (b1 d t : Nat) (ht : t < 8) :
    (b1 ^^^ shl8 (shr8 b1 d) d).testBit t =
      if d ≤ t then false else b1.testBit t := by
  simp only [Nat.testBit_xor, testBit_shl8, testBit_shr8]
  by_cases h : d ≤ t
  · have e : d + (t - d) = t := by omega
    rw [e]
    simp [h, ht]
  · simp [h, ht]

/-- Effect of the non-spanning clearing step: exactly the `BITS` bits of the
element (value positions `8 - BITS - st` to `8 - st - 1`) are zeroed. -/
lemma clear_nospan (b0 BITS st t : Nat) (hsp : st + BITS ≤ 8) (ht : t < 8) :
    (b0 ^^^ shl8 (shr8 (shl8 b0 st) (8 - BITS)) (8 - BITS - st)).testBit t =
      if 8 - BITS - st ≤ t ∧ t < 8 - st then false else b0.testBit t := by
  simp only [Nat.testBit_xor, testBit_shl8, testBit_shr8]
  by_cases h1 : 8 - BITS - st ≤ t
  · have e1 : 8 - BITS + (t - (8 - BITS - st)) = st + t := by omega
    have e2 : st + t - st = t := by omega
    rw [e1, e2]
    by_cases h2 : t < 8 - st
    · have e3 : st + t < 8 := by omega
      have e4 : st ≤ st + t := by omega
      simp [h1, h2, ht, e3, e4]
    · have e3 : ¬ (st + t < 8) := by omega
      simp [h1, h2, ht, e3]
  · simp [h1, ht]

/-- The clearing step zeroes exactly the bit run of element `index` and
changes nothing else. -/
lemma clearRaw_bitAt {BITS : Nat} (hB1 : 1 ≤ BITS) (hB8 : BITS ≤ 8)
    {c : List Nat} {index : Nat}
    (hlen : index * BITS + BITS ≤ 8 * c.length) (p : Nat) :
    bitAt (clearRaw BITS c index) p =
      if index * BITS ≤ p ∧ p < index * BITS + BITS then false
      else bitAt c p := by
  simp only [clearRaw, bitAt]
  generalize hM : index * BITS = M
  rw [hM] at hlen
  have hst : M - M / 8 * 8 = M % 8 := by omega
  rw [hst]
  have hsb : M / 8 < c.length := by omega
  have ht8 : 7 - p % 8 < 8 := by omega
  by_cases hsp : M % 8 + BITS > 8
  · rw [if_pos hsp]
    have hsb1 : M / 8 + 1 < c.length := by omega
    have hIn : ∀ x : Nat,
        (c.set (M / 8) x).getD (M / 8 + 1) 0 = c.getD (M / 8 + 1) 0 := by
      intro x
      rw [getD_set]
      exact if_neg (by omega)
    rw [hIn, getD_set, getD_set]
    simp only [List.length_set]
    by_cases hk1 : M / 8 + 1 = p / 8
    · rw [if_pos ⟨hk1, hsb1⟩, clear_span_hi _ _ _ ht8]
      split_ifs with h1 h2 h3
      · rfl
      · exfalso; omega
      · exfalso; omega
      · rw [hk1]
    · rw [if_neg (fun h => hk1 h.1)]
      by_cases hk0 : M / 8 = p / 8
      · rw [if_pos ⟨hk0, hsb⟩, clear_span_lo _ _ _ ht8]
        split_ifs with h1 h2 h3
        · rfl
        · exfalso; omega
        · exfalso; omega
        · rw [hk0]
      · rw [if_neg (fun h => hk0 h.1), if_neg (by omega)]
  · rw [if_neg hsp, getD_set]
    by_cases hk0 : M / 8 = p / 8
    · rw [if_pos ⟨hk0, hsb⟩, clear_nospan _ _ _ _ (by omega) ht8]
      split_ifs with h1 h2 h3
      · rfl
      · exfalso; omega
      · exfalso; omega
      · rw [hk0]
    · rw [if_neg (fun h => hk0 h.1), if_neg (by omega)]

/-- The write step ORs the low `BITS` bits of `value` into the bit run of
element `index` (most significant first) and changes nothing else. -/
lemma writeRaw_bitAt {BITS : Nat} (hB1 : 1 ≤ BITS) (hB8 : BITS ≤ 8)
    {c : List Nat} {index : Nat}
    (hlen : index * BITS + BITS ≤ 8 * c.length) (v p : Nat) :
    bitAt (writeRaw BITS c index v) p =
      if index * BITS ≤ p ∧ p < index * BITS + BITS
      then (bitAt c p || v.testBit (index * BITS + BITS - 1 - p))
      else bitAt c p := by
  simp only [writeRaw, bitAt]
  generalize hM : index * BITS = M
  rw [hM] at hlen
  have hst : M - M / 8 * 8 = M % 8 := by omega
  rw [hst]
  have hsb : M / 8 < c.length := by omega
  have ht8 : 7 - p % 8 < 8 := by omega
  by_cases hsp : M % 8 + BITS > 8
  · rw [if_pos hsp]
    have hsb1 : M / 8 + 1 < c.length := by omega
    have hIn : ∀ x : Nat,
        (c.set (M / 8) x).getD (M / 8 + 1) 0 = c.getD (M / 8 + 1) 0 := by
      intro x
      rw [getD_set]
      exact if_neg (by omega)
    rw [hIn, getD_set, getD_set]
    simp only [List.length_set]
    by_cases hk1 : M / 8 + 1 = p / 8
    · rw [if_pos ⟨hk1, hsb1⟩, ← hk1]
      simp only [Nat.testBit_or, testBit_shl8]
      by_cases hin : M ≤ p ∧ p < M + BITS
      · rw [if_pos hin]
        have e2 : 2 * 8 - BITS - M % 8 ≤ 7 - p % 8 := by omega
        have e3 : 7 - p % 8 - (2 * 8 - BITS - M % 8) = M + BITS - 1 - p := by
          omega
        rw [e3]
        simp [ht8, e2]
      · rw [if_neg hin]
        have e2 : ¬ (2 * 8 - BITS - M % 8 ≤ 7 - p % 8) := by omega
        simp [e2]
    · rw [if_neg (fun h => hk1 h.1)]
      by_cases hk0 : M / 8 = p / 8
      · rw [if_pos ⟨hk0, hsb⟩, ← hk0]
        simp only [Nat.testBit_or, testBit_shr8, testBit_shl8]
        by_cases hin : M ≤ p ∧ p < M + BITS
        · rw [if_pos hin]
          have e1 : M % 8 + (7 - p % 8) < 8 := by omega
          have e2 : 8 - BITS ≤ M % 8 + (7 - p % 8) := by omega
          have e3 : M % 8 + (7 - p % 8) - (8 - BITS) = M + BITS - 1 - p := by
            omega
          rw [e3]
          simp [e1, e2]
        · rw [if_neg hin]
          have e1 : ¬ (M % 8 + (7 - p % 8) < 8) := by omega
          simp [e1]
      · rw [if_neg (fun h => hk0 h.1), if_neg (by omega)]
  · rw [if_neg hsp, getD_set]
    by_cases hk0 : M / 8 = p / 8
    · rw [if_pos ⟨hk0, hsb⟩, ← hk0]
      simp only [Nat.testBit_or, testBit_shr8, testBit_shl8]
      by_cases hin : M ≤ p ∧ p < M + BITS
      · rw [if_pos hin]
        have e1 : M % 8 + (7 - p % 8) < 8 := by omega
        have e2 : 8 - BITS ≤ M % 8 + (7 - p % 8) := by omega
        have e3 : M % 8 + (7 - p % 8) - (8 - BITS) = M + BITS - 1 - p := by
          omega
        rw [e3]
        simp [e1, e2]
      · rw [if_neg hin]
        by_cases hn1 : M % 8 + (7 - p % 8) < 8
        · have e2 : ¬ (8 - BITS ≤ M % 8 + (7 - p % 8)) := by omega
          simp [e2]
        · simp [hn1]
    · rw [if_neg (fun h => hk0 h.1), if_neg (by omega)]

/-! ## Preservation of length and byte range -/

lemma length_clearRaw (BITS : Nat) (c : List Nat) (index : Nat) :
    (clearRaw BITS c index).length = c.length := by
  simp only [clearRaw]
  split <;> simp

lemma length_writeRaw (BITS : Nat) (c : List Nat) (index value : Nat) :
    (writeRaw BITS c index value).length = c.length := by
  simp only [writeRaw]
  split <;> simp

lemma length_setRaw (BITS : Nat) (c : List Nat) (index value : Nat) :
    (setRaw BITS c index value).length = c.length := by
  rw [setRaw, length_writeRaw, length_clearRaw]

lemma bytes_clearRaw {c : List Nat} (hc : ∀ b ∈ c, b < 256)
    (BITS index : Nat) : ∀ b ∈ clearRaw BITS c index, b < 256 := by
  simp only [clearRaw]
  split
  · refine bytes_set (bytes_set hc (xor_lt_256 (getD_lt hc _) (shr8_lt (shl8_lt _ _) _)) _)
      (xor_lt_256 (getD_lt (bytes_set hc (xor_lt_256 (getD_lt hc _) (shr8_lt (shl8_lt _ _) _)) _) _)
        (shl8_lt _ _)) _
  · exact bytes_set hc (xor_lt_256 (getD_lt hc _) (shl8_lt _ _)) _

lemma bytes_writeRaw {c : List Nat} (hc : ∀ b ∈ c, b < 256)
    (BITS index value : Nat) : ∀ b ∈ writeRaw BITS c index value, b < 256 := by
  simp only [writeRaw]
  split
  · refine bytes_set (bytes_set hc (lor_lt_256 (getD_lt hc _) (shr8_lt (shl8_lt _ _) _)) _)
      (lor_lt_256 (getD_lt (bytes_set hc (lor_lt_256 (getD_lt hc _) (shr8_lt (shl8_lt _ _) _)) _) _)
        (shl8_lt _ _)) _
  · exact bytes_set hc (lor_lt_256 (getD_lt hc _) (shr8_lt (shl8_lt _ _) _)) _

lemma bytes_setRaw {c : List Nat} (hc : ∀ b ∈ c, b < 256)
    (BITS index value : Nat) : ∀ b ∈ setRaw BITS c index value, b < 256 := by
  rw [setRaw]
  exact bytes_writeRaw (bytes_clearRaw hc BITS index) BITS index value

/-- The composite mutation of `set`: the bit run of element `index` now
holds the low `BITS` bits of `value` (most significant first); every other
bit of the stream is untouched. -/
lemma setRaw_bitAt {BITS : Nat} (hB1 : 1 ≤ BITS) (hB8 : BITS ≤ 8)
    {c : List Nat} {index : Nat}
    (hlen : index * BITS + BITS ≤ 8 * c.length) (v p : Nat) :
    bitAt (setRaw BITS c index v) p =
      if index * BITS ≤ p ∧ p < index * BITS + BITS
      then v.testBit (index * BITS + BITS - 1 - p)
      else bitAt c p := by
  rw [setRaw,
    writeRaw_bitAt hB1 hB8 (by rw [length_clearRaw]; exact hlen) v p,
    clearRaw_bitAt hB1 hB8 hlen p]
  split
  · simp
  · rfl

/-! ## Bridging lemmas -/

/-- For an in-bounds index the whole bit run of the element lies inside a
buffer of `get_array_length BITS LEN` bytes. -/
lemma run_fits {BITS LEN index : Nat} (hi : index < LEN) {len : Nat}
    (hlen : len = get_array_length BITS LEN) :
    index * BITS + BITS ≤ 8 * len := by
  have h1 : (index + 1) * BITS ≤ LEN * BITS :=
    Nat.mul_le_mul_right BITS (Nat.succ_le_of_lt hi)
  rw [Nat.succ_mul] at h1
  have h2 : LEN * BITS = BITS * LEN := Nat.mul_comm LEN BITS
  rw [get_array_length] at hlen
  omega

/-- Reading back the element just written yields `value mod 2 ^ BITS`. -/
lemma getRaw_setRaw_self {BITS : Nat} (hB1 : 1 ≤ BITS) (hB8 : BITS ≤ 8)
    {c : List Nat} {index : Nat} (hc : ∀ b ∈ c, b < 256)
    (hlen : index * BITS + BITS ≤ 8 * c.length) (v : Nat) :
    getRaw BITS (setRaw BITS c index v) index = v % 2 ^ BITS := by
  apply Nat.eq_of_testBit_eq
  intro j
  rw [getRaw_testBit hB1 hB8 (bytes_setRaw hc BITS index v) index j,
    setRaw_bitAt hB1 hB8 hlen v _, Nat.testBit_mod_two_pow]
  by_cases hj : j < BITS
  · have hin : index * BITS ≤ index * BITS + (BITS - 1 - j) ∧
      index * BITS + (BITS - 1 - j) < index * BITS + BITS := by omega
    have e : index * BITS + BITS - 1 - (index * BITS + (BITS - 1 - j)) = j := by
      omega
    rw [if_pos hin, e]
  · simp [hj]

/-- Writing element `i` does not change the value read at any element `j`
whose bit run is disjoint from that of `i`. -/
lemma getRaw_setRaw_other {BITS : Nat} (hB1 : 1 ≤ BITS) (hB8 : BITS ≤ 8)
    {c : List Nat} {i : Nat} (hc : ∀ b ∈ c, b < 256)
    (hlen : i * BITS + BITS ≤ 8 * c.length) (v : Nat) {j : Nat}
    (hdisj : i * BITS + BITS ≤ j * BITS ∨ j * BITS + BITS ≤ i * BITS) :
    getRaw BITS (setRaw BITS c i v) j = getRaw BITS c j := by
  apply Nat.eq_of_testBit_eq
  intro t
  rw [getRaw_testBit hB1 hB8 (bytes_setRaw hc BITS i v) j t,
    getRaw_testBit hB1 hB8 hc j t, setRaw_bitAt hB1 hB8 hlen v _]
  congr 1
  rw [if_neg (by omega)]

/-- Reading back a cleared element yields 0. -/
lemma getRaw_clearRaw_self {BITS : Nat} (hB1 : 1 ≤ BITS) (hB8 : BITS ≤ 8)
    {c : List Nat} {index : Nat} (hc : ∀ b ∈ c, b < 256)
    (hlen : index * BITS + BITS ≤ 8 * c.length) :
    getRaw BITS (clearRaw BITS c index) index = 0 := by
  apply Nat.eq_of_testBit_eq
  intro j
  rw [getRaw_testBit hB1 hB8 (bytes_clearRaw hc BITS index) index j,
    clearRaw_bitAt hB1 hB8 hlen _, Nat.zero_testBit]
  by_cases hj : j < BITS
  · have hin : index * BITS ≤ index * BITS + (BITS - 1 - j) ∧
      index * BITS + (BITS - 1 - j) < index * BITS + BITS := by omega
    rw [if_pos hin]
    simp
  · simp [hj]

/-- With `value = 0` the write step of `set` is a no-op, so `setRaw` with 0
is exactly the clearing step: the storage-level equivalence of `clear` and
`set(_, 0)`. -/
lemma setRaw_zero (BITS : Nat) (c : List Nat) (index : Nat) :
    setRaw BITS c index 0 = clearRaw BITS c index := by
  rw [setRaw]
  simp only [writeRaw]
  have h1 : ∀ s t : Nat, shr8 (shl8 0 s) t = 0 := by
    intro s t
    simp [shl8, shr8]
  have h2 : ∀ s : Nat, shl8 0 s = 0 := by
    intro s
    simp [shl8]
  have h3 : ∀ t : Nat, shr8 0 t = 0 := by
    intro t
    simp [shr8]
  split <;> simp only [h1, h2, h3, Nat.or_zero, set_getD_self]

/-- Two well-formed buffers with the same length and the same bit stream are
equal byte lists. -/
lemma content_ext {c d : List Nat} (hl : c.length = d.length)
    (hc : ∀ b ∈ c, b < 256) (hd : ∀ b ∈ d, b < 256)
    (h : ∀ p, bitAt c p = bitAt d p) : c = d := by
  apply List.ext_getElem?
  intro k
  rcases hck : getElem? c k with _ | b
  · have hk : c.length ≤ k := List.getElem?_eq_none_iff.mp hck
    rw [List.getElem?_eq_none (by omega)]
  · have hkc : k < c.length := by
      rcases List.getElem?_eq_some_iff.mp hck with ⟨hh, _⟩
      exact hh
    rcases hdk : getElem? d k with _ | e
    · have : d.length ≤ k := List.getElem?_eq_none_iff.mp hdk
      omega
    · have gb : c.getD k 0 = b := by
        rw [List.getD_eq_getElem?_getD, hck]
        rfl
      have ge : d.getD k 0 = e := by
        rw [List.getD_eq_getElem?_getD, hdk]
        rfl
      have hb : b < 256 := hc b (List.getElem?_mem hck)
      have he : e < 256 := hd e (List.getElem?_mem hdk)
      have hbe : b = e := by
        apply Nat.eq_of_testBit_eq
        intro j
        by_cases hj : j < 8
        · have hp := h (8 * k + (7 - j))
          simp only [bitAt] at hp
          have e1 : (8 * k + (7 - j)) / 8 = k := by omega
          have e2 : 7 - (8 * k + (7 - j)) % 8 = j := by omega
          rw [e1, e2, gb, ge] at hp
          exact hp
        · rw [testBit_of_lt_256 hb (Nat.le_of_not_lt hj),
            testBit_of_lt_256 he (Nat.le_of_not_lt hj)]
      rw [hbe]

/-- Clearing an already cleared element changes nothing. -/
lemma clearRaw_idem {BITS : Nat} (hB1 : 1 ≤ BITS) (hB8 : BITS ≤ 8)
    {c : List Nat} {index : Nat} (hc : ∀ b ∈ c, b < 256)
    (hlen : index * BITS + BITS ≤ 8 * c.length) :
    clearRaw BITS (clearRaw BITS c index) index = clearRaw BITS c index := by
  have hlen2 : index * BITS + BITS ≤ 8 * (clearRaw BITS c index).length := by
    rw [length_clearRaw]
    exact hlen
  apply content_ext (by rw [length_clearRaw])
    (bytes_clearRaw (bytes_clearRaw hc BITS index) BITS index)
    (bytes_clearRaw hc BITS index)
  intro p
  rw [clearRaw_bitAt hB1 hB8 hlen2 p]
  split
  · rw [clearRaw_bitAt hB1 hB8 hlen p, if_pos (by assumption)]
  · rfl

/-! ## Unfolding lemmas for the public operations -/

lemma get_eq_of_lt {BITS LEN : Nat} {a : PackedIntegerArray BITS LEN}
    {index : Nat} (hi : index < LEN) :
    get a index = some (getRaw BITS a.content index) := by
  simp only [get]
  rw [if_neg (Nat.not_le.mpr hi)]

lemma set_state_content {BITS LEN : Nat} (a : PackedIntegerArray BITS LEN)
    {index : Nat} (hi : index < LEN) (value : Nat) :
    (set a index value).state.content = setRaw BITS a.content index value := by
  simp only [set]
  rw [if_neg (Nat.not_le.mpr hi)]

lemma clear_state_content {BITS LEN : Nat} (a : PackedIntegerArray BITS LEN)
    {index : Nat} (hi : index < LEN) :
    (clear a index).state.content = clearRaw BITS a.content index := by
  simp only [clear]
  rw [if_neg (Nat.not_le.mpr hi)]

lemma set_warned {BITS LEN : Nat} (a : PackedIntegerArray BITS LEN)
    (index value : Nat) :
    (set a index value).warned = decide (2 ^ BITS ≤ value) := by
  simp only [set]
  split <;> rfl

lemma set_panicked {BITS LEN : Nat} (a : PackedIntegerArray BITS LEN)
    (index value : Nat) :
    (set a index value).panicked = decide (LEN ≤ index) := by
  by_cases h : LEN ≤ index
  · simp only [set]
    rw [if_pos h]
    simp [h]
  · simp only [set]
    rw [if_neg h]
    simp [h]

lemma clear_panicked {BITS LEN : Nat} (a : PackedIntegerArray BITS LEN)
    (index : Nat) :
    (clear a index).panicked = decide (LEN ≤ index) := by
  by_cases h : LEN ≤ index
  · simp only [clear]
    rw [if_pos h]
    simp [h]
  · simp only [clear]
    rw [if_neg h]
    simp [h]

/-- Distinct elements occupy disjoint bit runs. -/
lemma runs_disjoint {BITS i j : Nat} (hne : j ≠ i) :
    i * BITS + BITS ≤ j * BITS ∨ j * BITS + BITS ≤ i * BITS := by
  rcases Nat.lt_or_ge i j with h | h
  · left
    have h2 := Nat.mul_le_mul_right BITS (Nat.succ_le_of_lt h)
    rw [Nat.succ_mul] at h2
    exact h2
  · right
    have hji : j < i := lt_of_le_of_ne h hne
    have h2 := Nat.mul_le_mul_right BITS (Nat.succ_le_of_lt hji)
    rw [Nat.succ_mul] at h2
    exact h2

/-! ## The claims -/

/-- C1: Round-trip: for every BITS in 1..=8, every LEN, every index < LEN,
and every value < 2^BITS, calling set(index, value) on any container state
and then get(index) returns exactly value (including when the element's bit
run straddles two adjacent storage bytes). -/
theorem C1_round_trip {BITS LEN : Nat} (hB1 : 1 ≤ BITS) (hB8 : BITS ≤ 8)
    (a : PackedIntegerArray BITS LEN) (ha : Wf a) {index : Nat}
    (hi : index < LEN) {value : Nat} (hv : value < 2 ^ BITS) :
    get (set a index value).state index = some value := by
  rw [get_eq_of_lt hi, set_state_content a hi value,
    getRaw_setRaw_self hB1 hB8 ha.2 (run_fits hi ha.1) value,
    Nat.mod_eq_of_lt hv]

/-- C1 witness at BITS = 3, LEN = 9, index = 2 (a straddling element),
value = 5. -/
theorem C1_round_trip_witness :
    Wf (new 3 9) ∧ (2 : Nat) < 9 ∧ (5 : Nat) < 2 ^ 3 ∧
      get (set (new 3 9) 2 5).state 2 = some 5 :=
  ⟨⟨by decide, by decide⟩, by decide, by decide,
    C1_round_trip (by decide) (by decide) (new 3 9) ⟨by decide, by decide⟩
      (by decide) (by decide)⟩

/-- C2: Non-interference: for every BITS in 1..=8, every LEN, every index
i < LEN, every value, and every container state, after set(i, value) the
result of get(j) is unchanged for every j < LEN with j != i. -/
theorem C2_non_interference {BITS LEN : Nat} (hB1 : 1 ≤ BITS)
    (hB8 : BITS ≤ 8) (a : PackedIntegerArray BITS LEN) (ha : Wf a)
    {i : Nat} (hi : i < LEN) (value : Nat) {j : Nat} (hj : j < LEN)
    (hne : j ≠ i) :
    get (set a i value).state j = get a j := by
  rw [get_eq_of_lt hj, get_eq_of_lt hj, set_state_content a hi value,
    getRaw_setRaw_other hB1 hB8 ha.2 (run_fits hi ha.1) value
      (runs_disjoint hne)]

/-- C2 witness at BITS = 3, LEN = 9, i = 2, j = 3, value = 7. -/
theorem C2_non_interference_witness :
    Wf (new 3 9) ∧ (2 : Nat) < 9 ∧ (3 : Nat) < 9 ∧ (3 : Nat) ≠ 2 ∧
      get (set (new 3 9) 2 7).state 3 = get (new 3 9) 3 :=
  ⟨⟨by decide, by decide⟩, by decide, by decide, by decide,
    C2_non_interference (by decide) (by decide) (new 3 9)
      ⟨by decide, by decide⟩ (by decide) 7 (by decide) (by decide)⟩

/-- C3: Truncation: for every BITS in 1..=8, every index < LEN, and every
value >= 2^BITS, set(index, value) succeeds, a diagnostic warning is
recorded, and a subsequent get(index) returns value mod 2^BITS (only the
low BITS bits of value are stored, in both the single-byte and the
byte-straddling case). -/
theorem C3_truncation {BITS LEN : Nat} (hB1 : 1 ≤ BITS) (hB8 : BITS ≤ 8)
    (a : PackedIntegerArray BITS LEN) (ha : Wf a) {index : Nat}
    (hi : index < LEN) {value : Nat} (hv : 2 ^ BITS ≤ value)
    (hv8 : value < 256) :
    (set a index value).warned = true ∧
      (set a index value).panicked = false ∧
      get (set a index value).state index = some (value % 2 ^ BITS) := by
  refine ⟨?_, ?_, ?_⟩
  · rw [set_warned]
    simp [hv]
  · rw [set_panicked]
    simp [Nat.not_le.mpr hi]
  · rw [get_eq_of_lt hi, set_state_content a hi value,
      getRaw_setRaw_self hB1 hB8 ha.2 (run_fits hi ha.1) value]

/-- C3 witness at BITS = 3, LEN = 9, index = 2, value = 12 (12 >= 8,
and 12 mod 8 = 4). -/
theorem C3_truncation_witness :
    Wf (new 3 9) ∧ (2 : Nat) < 9 ∧ (2 : Nat) ^ 3 ≤ 12 ∧ (12 : Nat) < 256 ∧
      ((set (new 3 9) 2 12).warned = true ∧
        (set (new 3 9) 2 12).panicked = false ∧
        get (set (new 3 9) 2 12).state 2 = some (12 % 2 ^ 3)) :=
  ⟨⟨by decide, by decide⟩, by decide, by decide, by decide,
    C3_truncation (by decide) (by decide) (new 3 9) ⟨by decide, by decide⟩
      (by decide) (by decide) (by decide)⟩

/-- C4: Clear/set equivalence: for every BITS in 1..=8, every index < LEN,
and every container state, clear(index) leaves the container in exactly the
same storage state as set(index, 0) does; consequently get(index)
afterwards is 0 and every other element is unchanged, and a second
clear(index) leaves the state unchanged. -/
theorem C4_clear_is_set_zero {BITS LEN : Nat} (hB1 : 1 ≤ BITS)
    (hB8 : BITS ≤ 8) (a : PackedIntegerArray BITS LEN) (ha : Wf a)
    {index : Nat} (hi : index < LEN) :
    (clear a index).state = (set a index 0).state ∧
      get (clear a index).state index = some 0 ∧
      (∀ j, j < LEN → j ≠ index → get (clear a index).state j = get a j) ∧
      (clear (clear a index).state index).state = (clear a index).state := by
  refine ⟨?_, ?_, ?_, ?_⟩
  · simp only [clear, set]
    rw [if_neg (Nat.not_le.mpr hi), if_neg (Nat.not_le.mpr hi), setRaw_zero]
  · rw [get_eq_of_lt hi, clear_state_content a hi,
      getRaw_clearRaw_self hB1 hB8 ha.2 (run_fits hi ha.1)]
  · intro j hj hne
    rw [get_eq_of_lt hj, get_eq_of_lt hj, clear_state_content a hi,
      ← setRaw_zero,
      getRaw_setRaw_other hB1 hB8 ha.2 (run_fits hi ha.1) 0
        (runs_disjoint hne)]
  · simp only [clear]
    rw [if_neg (Nat.not_le.mpr hi), if_neg (Nat.not_le.mpr hi)]
    simp only []
    rw [clearRaw_idem hB1 hB8 ha.2 (run_fits hi ha.1)]

/-- C4 witness at BITS = 3, LEN = 9, index = 2 on a container previously
holding 7 at index 2. -/
theorem C4_clear_is_set_zero_witness :
    Wf (set (new 3 9) 2 7).state ∧ (2 : Nat) < 9 ∧
      ((clear (set (new 3 9) 2 7).state 2).state =
          (set (set (new 3 9) 2 7).state 2 0).state ∧
        get (clear (set (new 3 9) 2 7).state 2).state 2 = some 0 ∧
        (∀ j, j < 9 → j ≠ 2 →
          get (clear (set (new 3 9) 2 7).state 2).state j =
            get (set (new 3 9) 2 7).state j) ∧
        (clear (clear (set (new 3 9) 2 7).state 2).state 2).state =
          (clear (set (new 3 9) 2 7).state 2).state) :=
  ⟨⟨by decide, by decide⟩, by decide,
    C4_clear_is_set_zero (by decide) (by decide) (set (new 3 9) 2 7).state
      ⟨by decide, by decide⟩ (by decide)⟩

/-- C5: Bounds fatality: for every index >= LEN, each of get(index),
set(index, value) for any value, and clear(index) fails with the fatal
out-of-range precondition violation (a panic, not a recoverable result),
and no other failure mode exists for these operations: the panic happens
exactly when LEN <= index. -/
theorem C5_bounds_fatal {BITS LEN : Nat} (a : PackedIntegerArray BITS LEN)
    (index value : Nat) :
    (get a index).isNone = decide (LEN ≤ index) ∧
      (set a index value).panicked = decide (LEN ≤ index) ∧
      (clear a index).panicked = decide (LEN ≤ index) := by
  refine ⟨?_, set_panicked a index value, clear_panicked a index⟩
  by_cases h : LEN ≤ index
  · simp only [get]
    rw [if_pos h]
    simp [h]
  · simp only [get]
    rw [if_neg h]
    simp [h]

/-- C6: Concrete unpack scenario: on a freshly constructed container with
BITS=3 and LEN=9, performing set(2, 4) then set(4, 5) and then unpack()
yields exactly the sequence [0, 0, 4, 0, 5, 0, 0, 0, 0]. -/
theorem C6_unpack_scenario :
    unpack (set (set (new 3 9) 2 4).state 4 5).state =
      some [0, 0, 4, 0, 5, 0, 0, 0, 0] := by
  decide

/-- C7: Size formula: for every BITS and LEN, the backing storage has
exactly ceil(BITS * LEN / 8) bytes for the lifetime of the instance (set
and clear never change its length); in particular (3, 4) gives 2 bytes,
(3, 9) gives 4, (8, 1) gives 1, (1, 8) gives 1, and (5, 4) gives 3. -/
theorem C7_size_formula :
    (∀ BITS LEN : Nat,
      (new BITS LEN).content.length = get_array_length BITS LEN) ∧
    (∀ BITS LEN : Nat, get_array_length BITS LEN = (BITS * LEN + 7) / 8) ∧
    (∀ (BITS LEN : Nat) (a : PackedIntegerArray BITS LEN)
        (index value : Nat),
      (set a index value).state.content.length = a.content.length ∧
        (clear a index).state.content.length = a.content.length) ∧
    get_array_length 3 4 = 2 ∧ get_array_length 3 9 = 4 ∧
    get_array_length 8 1 = 1 ∧ get_array_length 1 8 = 1 ∧
    get_array_length 5 4 = 3 := by
  refine ⟨?_, ?_, ?_, by decide, by decide, by decide, by decide, by decide⟩
  · intro BITS LEN
    simp [new]
  · intro BITS LEN
    simp only [get_array_length]
    omega
  · intro BITS LEN a index value
    constructor
    · by_cases h : LEN ≤ index
      · simp only [set]
        rw [if_pos h]
      · simp only [set]
        rw [if_neg h]
        simp only []
        rw [length_setRaw]
    · by_cases h : LEN ≤ index
      · simp only [clear]
        rw [if_pos h]
      · simp only [clear]
        rw [if_neg h]
        simp only []
        rw [length_clearRaw]

/-- C8: Warning iff out-of-range value: set(index, value) emits the
truncation diagnostic if and only if value >= 2^BITS; in particular, when
BITS = 8 no call to set ever emits the diagnostic, because an 8-bit value
cannot reach 2^8 = 256. -/
theorem C8_warned_iff {BITS LEN : Nat} (a : PackedIntegerArray BITS LEN)
    (index value : Nat) :
    ((set a index value).warned = true ↔ 2 ^ BITS ≤ value) ∧
      (BITS = 8 → value < 256 → (set a index value).warned = false) := by
  constructor
  · rw [set_warned]
    simp
  · intro h8 hv
    subst h8
    rw [set_warned]
    simp only [decide_eq_false_iff_not]
    norm_num
    omega

/-- C8 witness: with BITS = 8 and the largest u8 value 255 the warning is
not emitted. -/
theorem C8_warned_iff_witness : (set (new 8 4) 0 255).warned = false :=
  (C8_warned_iff (new 8 4) 0 255).2 rfl (by decide)

/-- C9: Implicit — warning precedes bounds check: in set, the
out-of-range-value check runs before the index bounds check, so a call
set(index, value) with index >= LEN and value >= 2^BITS still emits the
truncation diagnostic even though the operation then terminates with the
fatal bounds violation. -/
theorem C9_warn_before_bounds {BITS LEN : Nat}
    (a : PackedIntegerArray BITS LEN) {index value : Nat}
    (hi : LEN ≤ index) (hv : 2 ^ BITS ≤ value) :
    (set a index value).warned = true ∧
      (set a index value).panicked = true := by
  constructor
  · rw [set_warned]
    simp [hv]
  · rw [set_panicked]
    simp [hi]

/-- C9 witness at BITS = 3, LEN = 9, index = 10 (out of bounds),
value = 200 (>= 8). -/
theorem C9_warn_before_bounds_witness :
    (9 : Nat) ≤ 10 ∧ (2 : Nat) ^ 3 ≤ 200 ∧
      ((set (new 3 9) 10 200).warned = true ∧
        (set (new 3 9) 10 200).panicked = true) :=
  ⟨by decide, by decide,
    C9_warn_before_bounds (new 3 9) (by decide) (by decide)⟩

/-- C10: Implicit — atomicity on bounds failure: when get, set, or clear
is called with index >= LEN, the backing storage is unchanged by the call
(the fatal bounds check fires before any mutation of the byte buffer);
get returns no value at all. -/
theorem C10_atomic_on_panic {BITS LEN : Nat}
    (a : PackedIntegerArray BITS LEN) {index : Nat} (value : Nat)
    (hi : LEN ≤ index) :
    (set a index value).state = a ∧ (clear a index).state = a ∧
      get a index = none := by
  refine ⟨?_, ?_, ?_⟩
  · simp only [set]
    rw [if_pos hi]
  · simp only [clear]
    rw [if_pos hi]
  · simp only [get]
    rw [if_pos hi]

/-- C10 witness at BITS = 3, LEN = 9, index = 9, value = 7, on a container
previously holding 5 at index 4. -/
theorem C10_atomic_on_panic_witness :
    (9 : Nat) ≤ 9 ∧
      ((set (set (new 3 9) 4 5).state 9 7).state = (set (new 3 9) 4 5).state ∧
        (clear (set (new 3 9) 4 5).state 9).state = (set (new 3 9) 4 5).state ∧
        get (set (new 3 9) 4 5).state 9 = none) :=
  ⟨by decide, C10_atomic_on_panic (set (new 3 9) 4 5).state 7 (by decide)⟩

end PIA
